import Mathlib

/-!
Verification of the label co-occurrence clustering code of scikit-multilearn
(`skmultilearn/cluster/base.py` and `skmultilearn/cluster/graphtool.py`).

The Python code is embedded shallowly:

* a binary label matrix `y` of shape `(n_samples, label_count)` is a
  `List (List Bool)` together with the column count `label_count`;
* the `lil`-format row lists produced by `get_matrix_in_format(y, 'lil')`
  are recovered by `rowIndices` (the increasing list of true columns);
* the Python `dict` `edge_map` is an insertion-ordered association list
  `EdgeMap`; float weights are modelled as `ℚ` (all weights arising here
  are small dyadic rationals, on which binary floating point is exact);
* the fragments of `fit_predict` that orchestrate the external
  `graph_tool` inference engine are embedded as functions of the values
  the engine returns (block arrays, entropies), since the engine itself
  is an external library.
-/

set_option autoImplicit false

namespace Skmultilearn

/-- The three validated configuration flags of
`LabelCooccurenceClustererBase` (`base.py`). -/
structure CoocConfig where
  is_weighted : Bool
  include_self_edges : Bool
  normalize_self_edges : Bool
deriving DecidableEq, Repr

/-- The Python dict `edge_map`: an insertion-ordered association list from
label pairs to float weights. -/
abbrev EdgeMap := List ((Nat × Nat) × ℚ)

/-- Dictionary lookup `edge_map[p]` (`none` models a missing key). -/
def edgeLookup (m : EdgeMap) (p : Nat × Nat) : Option ℚ :=
  (m.find? (fun kv => kv.1 == p)).map (fun kv => kv.2)

/-- The `lil` row of a dense binary row: the increasing list of column
indices `j < label_count` whose entry is true.  This is what
`get_matrix_in_format(y, 'lil')` stores in `label_data.rows`. -/
def rowIndices (label_count : Nat) (row : List Bool) : List Nat :=
  (List.range label_count).filter (fun j => row.getD j false)

/-- The pair comprehension of `generate_coocurence_adjacency_matrix`:
`[(a, b) for b in row for a in row if a <= b]` when self edges are
included, with `a < b` instead when they are excluded. -/
def rowPairs (include_self_edges : Bool) (row : List Nat) : List (Nat × Nat) :=
  row.flatMap (fun b =>
    (row.filter (fun a =>
      if include_self_edges then decide (a ≤ b) else decide (a < b))).map
      (fun a => (a, b)))

/-- One update of `edge_map` for a pair `p`:
`if p not in edge_map: edge_map[p] = 1.0` and otherwise
`edge_map[p] += 1.0` when weighted (no update when unweighted). -/
def insertPair (is_weighted : Bool) (m : EdgeMap) (p : Nat × Nat) : EdgeMap :=
  if m.any (fun kv => kv.1 == p) then
    if is_weighted then
      m.map (fun kv => if kv.1 == p then (kv.1, kv.2 + 1) else kv)
    else m
  else m ++ [(p, 1)]

/-- The final normalization loop:
`for i in range(label_count): if (i,i) in edge_map: edge_map[(i,i)] /= 2.0`. -/
def normalizeSelfEdges (label_count : Nat) (m : EdgeMap) : EdgeMap :=
  m.map (fun kv =>
    if kv.1.1 == kv.1.2 && decide (kv.1.1 < label_count) then (kv.1, kv.2 / 2)
    else kv)

/-- `LabelCooccurenceClustererBase.generate_coocurence_adjacency_matrix`
on a dense binary matrix `y` whose shape has `label_count` columns. -/
def generate_coocurence_adjacency_matrix (cfg : CoocConfig) (label_count : Nat)
    (y : List (List Bool)) : EdgeMap :=
  let rows := y.map (rowIndices label_count)
  let edge_map := rows.foldl
    (fun m row => (rowPairs cfg.include_self_edges row).foldl (insertPair cfg.is_weighted) m)
    ([] : EdgeMap)
  if cfg.normalize_self_edges then normalizeSelfEdges label_count edge_map else edge_map

/-- The concatenation of the per-row pair lists over all rows of `y`:
the multiset of pairs fed to the `edge_map` updates, in order. -/
def allPairs (include_self_edges : Bool) (label_count : Nat) (y : List (List Bool)) :
    List (Nat × Nat) :=
  (y.map (rowIndices label_count)).flatMap (rowPairs include_self_edges)

/-- A graph_tool `Graph(directed=False)`, as far as this code observes it:
a vertex count and the list of added (undirected) edges in insertion
order.  `add_edge` follows graph_tool's `add_missing=True` default: an
endpoint beyond the current vertex range grows the vertex set to cover it. -/
structure GtGraph where
  num_vertices : Nat
  edges : List (Nat × Nat)
deriving DecidableEq, Repr

/-- `Graph.add_vertex(n)`: appends `n` fresh vertices. -/
def GtGraph.add_vertex (g : GtGraph) (n : Nat) : GtGraph :=
  { num_vertices := g.num_vertices + n, edges := g.edges }

/-- `Graph.add_edge(s, t)` with graph_tool's default `add_missing=True`. -/
def GtGraph.add_edge (g : GtGraph) (s t : Nat) : GtGraph :=
  { num_vertices := max g.num_vertices (max (s + 1) (t + 1)),
    edges := g.edges ++ [(s, t)] }

/-- `GraphToolCooccurenceClusterer.build_graph_instance`, applied to the
edge map produced by the builder: creates an undirected graph, adds
`label_count` vertices, then adds one edge per edge-map entry, recording
the entry's value in the parallel `weights` edge-property list. -/
def build_graph_instance (label_count : Nat) (edge_map : EdgeMap) :
    GtGraph × List ℚ :=
  let g := GtGraph.add_vertex ⟨0, []⟩ label_count
  edge_map.foldl
    (fun gw kv => (gw.1.add_edge kv.1.1 kv.1.2, gw.2 ++ [kv.2]))
    (g, ([] : List ℚ))

/-- The model-selection step of `GraphToolCooccurenceClusterer.fit_predict`,
as a function of the mean-field and Bethe entropies (`S_mf_`, `S_bethe_`)
that `predict_communities` collects per degree-correction setting.  It
returns the list of settings inference is run for, in loop order, together
with `which_model_to_use`. -/
def fit_predict_select_model (use_degree_corr : Option Bool)
    (model_selection_criterium : String) (s_mf s_bethe : Bool → ℚ) :
    List Bool × Bool :=
  match use_degree_corr with
  | none =>
    let decision_criterion :=
      if model_selection_criterium = "bethe" then s_bethe else s_mf
    ([true, false], decide (decision_criterion true < decision_criterion false))
  | some b => ([b], b)

/-- One iteration of the `for label_id, block_id in enumerate(found_blocks)`
loop: `label_sets[block_id].append(label_id)`, where `ib = (label_id,
block_id)`.  A missing key (Python `KeyError`) poisons the state to `none`. -/
def label_sets_step (acc : Option (List (Nat × List Nat))) (ib : Nat × Nat) :
    Option (List (Nat × List Nat)) :=
  match acc with
  | none => none
  | some m =>
    if m.any (fun kv => kv.1 == ib.2) then
      some (m.map (fun kv => if kv.1 == ib.2 then (kv.1, kv.2 ++ [ib.1]) else kv))
    else none

/-- The cluster-extraction step of `fit_predict`, as a function of
`found_blocks = state_to_use.get_blocks().get_array()`: builds the dict
`{b: [] for b in range(len(found_blocks))}`, appends each label id to its
block's list, and keeps the non-empty lists in key order.  `none` models
the `KeyError` Python would raise if a block id fell outside the dict's
key range. -/
def fit_predict_label_sets (found_blocks : List Nat) : Option (List (List Nat)) :=
  let n := found_blocks.length
  let label_sets : List (Nat × List Nat) := (List.range n).map (fun b => (b, []))
  match found_blocks.enum.foldl label_sets_step (some label_sets) with
  | none => none
  | some m => some ((m.map (fun kv => kv.2)).filter (fun c => decide (0 < c.length)))

/-- Python values that can reach the boolean configuration flags of
`LabelCooccurenceClustererBase.__init__`. -/
inductive PyVal where
  | pynone
  | pybool (b : Bool)
  | pyint (n : Int)
deriving DecidableEq, Repr

/-- Python `==` on the modelled values: numeric equality identifies
`True` with `1` and `False` with `0`. -/
def pyEq : PyVal → PyVal → Bool
  | .pynone, .pynone => true
  | .pybool b, .pybool c => b == c
  | .pybool b, .pyint n => (if b then (1 : Int) else 0) == n
  | .pyint n, .pybool b => n == (if b then (1 : Int) else 0)
  | .pyint m, .pyint n => m == n
  | .pynone, _ => false
  | _, .pynone => false

/-- Python truthiness of the modelled values. -/
def pyTruthy : PyVal → Bool
  | .pynone => false
  | .pybool b => b
  | .pyint n => n != 0

/-- Python `v in [True, False]`: list membership tested with `==`. -/
def pyInTrueFalse (v : PyVal) : Bool :=
  pyEq v (.pybool true) || pyEq v (.pybool false)

/-- Whether `v` is strictly a Python boolean (`True` or `False`). -/
def pyIsStrictBool : PyVal → Bool
  | .pybool _ => true
  | _ => false

/-- The attributes `LabelCooccurenceClustererBase.__init__` sets on success. -/
structure LabelCooccurenceAttrs where
  is_weighted : PyVal
  include_self_edges : PyVal
  normalize_self_edges : PyVal
deriving DecidableEq, Repr

/-- `LabelCooccurenceClustererBase.__init__`: the four validation checks in
source order, each raising `ValueError` (modelled as `.error` carrying the
message) before any attribute is assigned; the attributes are only
produced on the success path. -/
def LabelCooccurenceClustererBase_init
    (weighted include_self_edges normalize_self_edges : PyVal) :
    Except String LabelCooccurenceAttrs :=
  if !pyInTrueFalse weighted then
    .error "Weighted needs to be a boolean"
  else if !pyInTrueFalse include_self_edges then
    .error "Decision whether to include self edges needs to be a boolean"
  else if !pyInTrueFalse normalize_self_edges then
    .error "Decision whether to normalize self edges needs to be a boolean"
  else if !pyTruthy include_self_edges && pyTruthy normalize_self_edges then
    .error "Include self edges must be set to true if normalization is true"
  else
    .ok ⟨weighted, include_self_edges, normalize_self_edges⟩

/-! ## Lookup lemmas for the edge map -/

theorem edgeLookup_cons (kv : (Nat × Nat) × ℚ) (m : EdgeMap) (p : Nat × Nat) :
    edgeLookup (kv :: m) p = if kv.1 == p then some kv.2 else edgeLookup m p := by
  simp only [edgeLookup, List.find?_cons]
  cases h : kv.1 == p <;> simp [h]

theorem edgeLookup_isSome_eq_any (m : EdgeMap) (p : Nat × Nat) :
    (edgeLookup m p).isSome = m.any (fun kv => kv.1 == p) := by
  induction m with
  | nil => rfl
  | cons kv m ih =>
    rw [edgeLookup_cons]
    cases h : kv.1 == p <;> simp [h, ih]

theorem edgeLookup_ne_none_of_mem (m : EdgeMap) (kv : (Nat × Nat) × ℚ)
    (h : kv ∈ m) : edgeLookup m kv.1 ≠ none := by
  have hany : m.any (fun e => e.1 == kv.1) = true :=
    List.any_eq_true.2 ⟨kv, h, by simp⟩
  have := edgeLookup_isSome_eq_any m kv.1
  rw [hany] at this
  intro hnone
  rw [hnone] at this
  simp at this

theorem edgeLookup_append_single (m : EdgeMap) (q : Nat × Nat) (x : ℚ) (p : Nat × Nat) :
    edgeLookup (m ++ [(q, x)]) p =
      match edgeLookup m p with
      | some v => some v
      | none => if q == p then some x else none := by
  induction m with
  | nil =>
    rw [List.nil_append, edgeLookup_cons]
    rfl
  | cons kv m ih =>
    rw [List.cons_append, edgeLookup_cons, edgeLookup_cons]
    cases h : kv.1 == p <;> simp [h, ih]

theorem edgeLookup_map_bump (m : EdgeMap) (q p : Nat × Nat) :
    edgeLookup (m.map (fun kv => if kv.1 == q then (kv.1, kv.2 + 1) else kv)) p =
      if p = q then (edgeLookup m p).map (fun v => v + 1) else edgeLookup m p := by
  induction m with
  | nil => simp [edgeLookup]
  | cons kv m ih =>
    rw [List.map_cons]
    have hhead : (if kv.1 == q then ((kv.1, kv.2 + 1) : (Nat × Nat) × ℚ) else kv)
        = (kv.1, if kv.1 == q then kv.2 + 1 else kv.2) := by
      cases h : kv.1 == q <;> simp
    rw [hhead, edgeLookup_cons, edgeLookup_cons]
    by_cases hp : kv.1 = p
    · subst hp
      by_cases hpq : kv.1 = q
      · simp [hpq]
      · simp [hpq]
    · have h1 : (kv.1 == p) = false := by simp [hp]
      simp only [h1, Bool.false_eq_true, if_false]
      exact ih

theorem edgeLookup_insertPair (w : Bool) (m : EdgeMap) (q p : Nat × Nat) :
    edgeLookup (insertPair w m q) p =
      if p = q then
        match edgeLookup m q with
        | none => some 1
        | some v => some (if w then v + 1 else v)
      else edgeLookup m p := by
  cases hany : m.any (fun kv => kv.1 == q)
  · have hnone : edgeLookup m q = none := by
      have h := edgeLookup_isSome_eq_any m q
      rw [hany] at h
      cases h' : edgeLookup m q with
      | none => rfl
      | some v => rw [h'] at h; simp at h
    have hins : insertPair w m q = m ++ [(q, 1)] := by
      simp [insertPair, hany]
    rw [hins, edgeLookup_append_single, hnone]
    by_cases hpq : p = q
    · subst hpq
      rw [hnone]
      simp
    · have hqp : (q == p) = false := by
        simp only [beq_eq_false_iff_ne, ne_eq]
        exact fun h => hpq h.symm
      rw [if_neg hpq]
      cases h : edgeLookup m p <;> simp [hqp]
  · have hsome : (edgeLookup m q).isSome = true := by
      rw [edgeLookup_isSome_eq_any, hany]
    rcases Option.isSome_iff_exists.1 hsome with ⟨v, hv⟩
    rw [hv]
    cases w
    · have hins : insertPair false m q = m := by
        simp [insertPair, hany]
      rw [hins]
      by_cases hpq : p = q
      · subst hpq; rw [hv]; simp
      · rw [if_neg hpq]
    · have hins : insertPair true m q =
          m.map (fun kv => if kv.1 == q then (kv.1, kv.2 + 1) else kv) := by
        simp [insertPair, hany]
      rw [hins, edgeLookup_map_bump]
      by_cases hpq : p = q
      · subst hpq; rw [hv]; simp
      · simp [hpq]

theorem edgeLookup_foldl_insertPair_some (w : Bool) (ps : List (Nat × Nat)) :
    ∀ (m : EdgeMap) (p : Nat × Nat) (v : ℚ), edgeLookup m p = some v →
      edgeLookup (ps.foldl (insertPair w) m) p =
        some (if w then v + (ps.count p : ℚ) else v) := by
  induction ps with
  | nil =>
    intro m p v h
    cases w <;> simpa using h
  | cons q tl ih =>
    intro m p v v_eq
    rw [List.foldl_cons]
    by_cases hpq : p = q
    · subst hpq
      have h1 : edgeLookup (insertPair w m p) p = some (if w then v + 1 else v) := by
        rw [edgeLookup_insertPair, if_pos rfl, v_eq]
      rw [ih _ _ _ h1]
      cases w
      · simp
      · simp only [Option.some.injEq, List.count_cons, beq_self_eq_true, if_true]
        push_cast
        ring
    · have h1 : edgeLookup (insertPair w m q) p = some v := by
        rw [edgeLookup_insertPair, if_neg hpq, v_eq]
      rw [ih _ _ _ h1, List.count_cons]
      have hqp : (q == p) = false := by
        simp only [beq_eq_false_iff_ne, ne_eq]
        exact fun h => hpq h.symm
      simp [hqp]

theorem edgeLookup_foldl_insertPair_none (w : Bool) (ps : List (Nat × Nat)) :
    ∀ (m : EdgeMap) (p : Nat × Nat), edgeLookup m p = none →
      edgeLookup (ps.foldl (insertPair w) m) p =
        if ps.count p = 0 then none
        else some (if w then (ps.count p : ℚ) else 1) := by
  induction ps with
  | nil =>
    intro m p h
    simpa using h
  | cons q tl ih =>
    intro m p h
    rw [List.foldl_cons]
    by_cases hpq : p = q
    · subst hpq
      have h1 : edgeLookup (insertPair w m p) p = some 1 := by
        rw [edgeLookup_insertPair, if_pos rfl, h]
      have hcount : List.count p (p :: tl) = List.count p tl + 1 := by
        rw [List.count_cons]; simp
      rw [edgeLookup_foldl_insertPair_some w tl _ _ _ h1, hcount,
        if_neg (Nat.succ_ne_zero _)]
      cases w
      · simp
      · simp only [Option.some.injEq, if_true]
        push_cast
        ring
    · have h1 : edgeLookup (insertPair w m q) p = none := by
        rw [edgeLookup_insertPair, if_neg hpq]
        exact h
      rw [ih _ _ h1, List.count_cons]
      have hqp : (q == p) = false := by
        simp only [beq_eq_false_iff_ne, ne_eq]
        exact fun h' => hpq h'.symm
      simp [hqp]

theorem foldl_insertPair_flatMap (w : Bool) (incl : Bool) (rows : List (List Nat)) :
    ∀ m : EdgeMap,
      rows.foldl (fun m row => (rowPairs incl row).foldl (insertPair w) m) m =
        (rows.flatMap (rowPairs incl)).foldl (insertPair w) m := by
  induction rows with
  | nil => intro m; rfl
  | cons r rs ih =>
    intro m
    rw [List.foldl_cons, List.flatMap_cons, List.foldl_append]
    exact ih _

theorem generate_eq_foldl (cfg : CoocConfig) (lc : Nat) (y : List (List Bool)) :
    generate_coocurence_adjacency_matrix cfg lc y =
      (if cfg.normalize_self_edges then
        normalizeSelfEdges lc
          ((allPairs cfg.include_self_edges lc y).foldl (insertPair cfg.is_weighted) [])
      else (allPairs cfg.include_self_edges lc y).foldl (insertPair cfg.is_weighted) []) := by
  simp only [generate_coocurence_adjacency_matrix, allPairs]
  rw [foldl_insertPair_flatMap]

theorem edgeLookup_normalizeSelfEdges (lc : Nat) (m : EdgeMap) (p : Nat × Nat) :
    edgeLookup (normalizeSelfEdges lc m) p =
      if p.1 = p.2 ∧ p.1 < lc then (edgeLookup m p).map (fun v => v / 2)
      else edgeLookup m p := by
  induction m with
  | nil => unfold normalizeSelfEdges; by_cases h : p.1 = p.2 ∧ p.1 < lc <;> simp [h, edgeLookup]
  | cons kv m ih =>
    unfold normalizeSelfEdges at ih ⊢
    rw [List.map_cons]
    have hhead : (if kv.1.1 == kv.1.2 && decide (kv.1.1 < lc) then ((kv.1, kv.2 / 2) : (Nat × Nat) × ℚ) else kv)
        = (kv.1, if kv.1.1 == kv.1.2 && decide (kv.1.1 < lc) then kv.2 / 2 else kv.2) := by
      cases h : kv.1.1 == kv.1.2 && decide (kv.1.1 < lc) <;> simp
    rw [hhead, edgeLookup_cons, edgeLookup_cons]
    by_cases hk : kv.1 = p
    · subst hk
      have heq : (kv.1 == kv.1) = true := by simp
      rw [if_pos heq, if_pos heq]
      by_cases hc : kv.1.1 = kv.1.2 ∧ kv.1.1 < lc
      · have hcond : (kv.1.1 == kv.1.2 && decide (kv.1.1 < lc)) = true := by
          have h1 : (kv.1.1 == kv.1.2) = true := by simp [hc.1]
          have h2 : decide (kv.1.1 < lc) = true := by simp [hc.2]
          rw [h1, h2]
          rfl
        rw [hcond, if_pos hc]
        simp
      · have hcond : (kv.1.1 == kv.1.2 && decide (kv.1.1 < lc)) = false := by
          rcases not_and_or.1 hc with h | h <;> simp [h]
        rw [hcond, if_neg hc]
        simp
    · have h1 : (kv.1 == p) = false := by simp [hk]
      rw [h1]
      simp only [Bool.false_eq_true, if_false]
      exact ih

/-! ## Membership and counting in the pair lists -/

theorem mem_rowIndices (lc : Nat) (r : List Bool) (j : Nat) :
    j ∈ rowIndices lc r ↔ j < lc ∧ r.getD j false = true := by
  simp [rowIndices, List.mem_filter, List.mem_range]

theorem nodup_rowIndices (lc : Nat) (r : List Bool) : (rowIndices lc r).Nodup :=
  (List.nodup_range lc).filter _

theorem mem_rowPairs (incl : Bool) (row : List Nat) (a b : Nat) :
    (a, b) ∈ rowPairs incl row ↔
      a ∈ row ∧ b ∈ row ∧ (if incl then a ≤ b else a < b) := by
  cases incl <;>
    simp only [rowPairs, List.mem_flatMap, List.mem_map, List.mem_filter, if_true,
      Bool.false_eq_true, if_false, decide_eq_true_eq, Prod.mk.injEq] <;>
    constructor
  · rintro ⟨b', hb', a', ⟨ha', hab⟩, rfl, rfl⟩
    exact ⟨ha', hb', hab⟩
  · rintro ⟨ha, hb, hab⟩
    exact ⟨b, hb, a, ⟨ha, hab⟩, rfl, rfl⟩
  · rintro ⟨b', hb', a', ⟨ha', hab⟩, rfl, rfl⟩
    exact ⟨ha', hb', hab⟩
  · rintro ⟨ha, hb, hab⟩
    exact ⟨b, hb, a, ⟨ha, hab⟩, rfl, rfl⟩

theorem mem_allPairs (incl : Bool) (lc : Nat) (y : List (List Bool)) (a b : Nat) :
    (a, b) ∈ allPairs incl lc y ↔
      (∃ r ∈ y, a ∈ rowIndices lc r ∧ b ∈ rowIndices lc r) ∧
        (if incl then a ≤ b else a < b) := by
  simp only [allPairs, List.mem_flatMap, List.mem_map]
  constructor
  · rintro ⟨row, ⟨r, hr, rfl⟩, hmem⟩
    rcases (mem_rowPairs incl _ a b).1 hmem with ⟨ha, hb, hab⟩
    exact ⟨⟨r, hr, ha, hb⟩, hab⟩
  · rintro ⟨⟨r, hr, ha, hb⟩, hab⟩
    exact ⟨rowIndices lc r, ⟨r, hr, rfl⟩, (mem_rowPairs incl _ a b).2 ⟨ha, hb, hab⟩⟩

theorem sum_map_ite_count (row : List Nat) (i : Nat) (k : Nat) :
    (row.map (fun b => if b = i then k else 0)).sum = row.count i * k := by
  induction row with
  | nil => simp
  | cons b tl ih =>
    rw [List.map_cons, List.sum_cons, ih, List.count_cons]
    by_cases hb : b = i
    · subst hb
      simp [Nat.add_mul, Nat.add_comm]
    · have : (b == i) = false := by simp [hb]
      simp [hb, this]

theorem sum_map_boole {α : Type} (p : α → Bool) (l : List α) :
    (l.map (fun x => if p x then 1 else 0)).sum = l.countP p := by
  induction l with
  | nil => rfl
  | cons x tl ih =>
    rw [List.map_cons, List.sum_cons, ih, List.countP_cons]
    by_cases h : p x <;> simp [h, Nat.add_comm]

theorem count_pair_map_fixed_snd (l : List Nat) (b i j : Nat) :
    (l.map (fun a => (a, b))).count (i, j) = if j = b then l.count i else 0 := by
  induction l with
  | nil => simp
  | cons a tl ih =>
    rw [List.map_cons, List.count_cons, List.count_cons, ih]
    by_cases hj : j = b
    · subst hj
      by_cases ha : a = i <;> simp [ha]
    · have hne : ((a, b) == (i, j)) = false := by
        simp only [beq_eq_false_iff_ne, ne_eq]
        intro h
        exact hj (congrArg Prod.snd h).symm
      rw [hne, if_neg hj, if_neg hj]
      simp

theorem count_self_rowPairs (row : List Nat) (hnd : row.Nodup) (i : Nat) :
    (rowPairs true row).count (i, i) = if i ∈ row then 1 else 0 := by
  unfold rowPairs
  rw [List.count_flatMap]
  have hterm : ∀ b : Nat,
      ((List.count (i, i) ∘ fun b =>
          (row.filter (fun a => if true = true then decide (a ≤ b) else decide (a < b))).map
            (fun a => (a, b))) b)
        = if b = i then (row.filter (fun a => decide (a ≤ i))).count i else 0 := by
    intro b
    simp only [Function.comp_apply, if_true]
    rw [count_pair_map_fixed_snd]
    by_cases hb : b = i
    · subst hb; simp
    · have : ¬ i = b := fun h => hb h.symm
      simp [this, hb]
  rw [List.map_congr_left (fun b _ => hterm b)]
  rw [sum_map_ite_count]
  by_cases hi : i ∈ row
  · have hfc : (row.filter (fun a => decide (a ≤ i))).count i = row.count i := by
      apply List.count_filter
      simp
    rw [hfc, List.count_eq_one_of_mem hnd hi]
    simp [hi]
  · have h0 : row.count i = 0 := List.count_eq_zero.2 hi
    rw [h0]
    simp [hi]

theorem count_self_allPairs (lc : Nat) (y : List (List Bool)) (i : Nat) (hi : i < lc) :
    (allPairs true lc y).count (i, i) = y.countP (fun r => r.getD i false) := by
  unfold allPairs
  rw [List.count_flatMap, List.map_map]
  have hterm : ∀ r : List Bool,
      ((List.count (i, i) ∘ rowPairs true) ∘ rowIndices lc) r
        = if (fun r : List Bool => r.getD i false) r then 1 else 0 := by
    intro r
    simp only [Function.comp_apply]
    rw [count_self_rowPairs _ (nodup_rowIndices lc r) i]
    by_cases hmem : i ∈ rowIndices lc r
    · rw [if_pos hmem, if_pos ((mem_rowIndices lc r i).1 hmem).2]
    · rw [if_neg hmem, if_neg (fun h => hmem ((mem_rowIndices lc r i).2 ⟨hi, h⟩))]
  rw [List.map_congr_left (fun r _ => hterm r)]
  rw [sum_map_boole]

/-! ## Keys and values of the generated edge map -/

theorem edgeLookup_fold_ne_none_iff (w : Bool) (ps : List (Nat × Nat)) (p : Nat × Nat) :
    edgeLookup (ps.foldl (insertPair w) []) p ≠ none ↔ p ∈ ps := by
  rw [edgeLookup_foldl_insertPair_none w ps [] p rfl]
  by_cases hc : ps.count p = 0
  · simp [hc, List.count_eq_zero.1 hc]
  · have hmem : p ∈ ps := by
      by_contra hnm
      exact hc (List.count_eq_zero.2 hnm)
    simp [hc, hmem]

theorem edgeLookup_fold_values (w : Bool) (ps : List (Nat × Nat)) (p : Nat × Nat) (v : ℚ)
    (h : edgeLookup (ps.foldl (insertPair w) []) p = some v) :
    (w = true ∧ v = (ps.count p : ℚ) ∧ ps.count p ≠ 0) ∨ (w = false ∧ v = 1) := by
  rw [edgeLookup_foldl_insertPair_none w ps [] p rfl] at h
  by_cases hc : ps.count p = 0
  · rw [if_pos hc] at h; cases h
  · rw [if_neg hc] at h
    cases w
    · refine .inr ⟨rfl, ?_⟩
      have h' := Option.some.inj h
      simpa using h'.symm
    · refine .inl ⟨rfl, ?_, hc⟩
      have h' := Option.some.inj h
      simpa using h'.symm

theorem edgeLookup_generate_ne_none_iff (cfg : CoocConfig) (lc : Nat)
    (y : List (List Bool)) (p : Nat × Nat) :
    edgeLookup (generate_coocurence_adjacency_matrix cfg lc y) p ≠ none ↔
      p ∈ allPairs cfg.include_self_edges lc y := by
  rw [generate_eq_foldl]
  by_cases hnorm : cfg.normalize_self_edges = true
  · rw [if_pos hnorm, edgeLookup_normalizeSelfEdges]
    by_cases hself : p.1 = p.2 ∧ p.1 < lc
    · rw [if_pos hself]
      have hmapne : ∀ x : Option ℚ, x.map (fun v => v / 2) ≠ none ↔ x ≠ none := by
        intro x; cases x <;> simp
      rw [hmapne]
      exact edgeLookup_fold_ne_none_iff _ _ p
    · rw [if_neg hself]
      exact edgeLookup_fold_ne_none_iff _ _ p
  · rw [if_neg hnorm]
    exact edgeLookup_fold_ne_none_iff _ _ p

theorem edgeLookup_generate_pos (cfg : CoocConfig) (lc : Nat) (y : List (List Bool))
    (p : Nat × Nat) (v : ℚ)
    (h : edgeLookup (generate_coocurence_adjacency_matrix cfg lc y) p = some v) :
    0 < v := by
  have hfoldpos : ∀ u : ℚ,
      edgeLookup ((allPairs cfg.include_self_edges lc y).foldl
        (insertPair cfg.is_weighted) []) p = some u → 0 < u := by
    intro u hu
    rcases edgeLookup_fold_values _ _ _ _ hu with ⟨_, hv, hc⟩ | ⟨_, hv⟩
    · rw [hv]
      exact_mod_cast Nat.pos_of_ne_zero hc
    · rw [hv]; norm_num
  rw [generate_eq_foldl] at h
  by_cases hnorm : cfg.normalize_self_edges = true
  · rw [if_pos hnorm, edgeLookup_normalizeSelfEdges] at h
    by_cases hself : p.1 = p.2 ∧ p.1 < lc
    · rw [if_pos hself] at h
      rcases Option.map_eq_some'.1 h with ⟨u, hu, hv⟩
      rw [← hv]
      exact div_pos (hfoldpos u hu) two_pos
    · rw [if_neg hself] at h
      exact hfoldpos v h
  · rw [if_neg hnorm] at h
    exact hfoldpos v h

/-! ## Graph construction -/

theorem build_graph_foldl (lc : Nat) (em : EdgeMap) :
    ∀ (g : GtGraph) (ws : List ℚ), g.num_vertices = lc →
      (∀ kv ∈ em, kv.1.1 < lc ∧ kv.1.2 < lc) →
      em.foldl (fun gw kv => (gw.1.add_edge kv.1.1 kv.1.2, gw.2 ++ [kv.2])) (g, ws) =
        (⟨lc, g.edges ++ em.map (fun kv => kv.1)⟩, ws ++ em.map (fun kv => kv.2)) := by
  induction em with
  | nil =>
    intro g ws hg _
    obtain ⟨nv, ed⟩ := g
    simp_all
  | cons kv em ih =>
    intro g ws hg hall
    rw [List.foldl_cons]
    have h1 := hall kv (List.mem_cons_self _ _)
    have hv : (GtGraph.add_edge g kv.1.1 kv.1.2).num_vertices = lc := by
      show max g.num_vertices (max (kv.1.1 + 1) (kv.1.2 + 1)) = lc
      rw [hg]
      exact Nat.max_eq_left (Nat.max_le.2 ⟨h1.1, h1.2⟩)
    rw [ih _ _ hv (fun e he => hall e (List.mem_cons_of_mem _ he))]
    simp [GtGraph.add_edge, List.append_assoc]

/-! ## Claim theorems: adjacency builder and graph assembler -/

/-- C7: every key `(a, b)` of the edge map returned by
`generate_coocurence_adjacency_matrix` respects the configured pair
policy: `a ≤ b` when `include_self_edges` is true, and `a < b` (so no
self-edge key ever occurs) when it is false. -/
theorem edge_map_keys_respect_policy (cfg : CoocConfig) (lc : Nat)
    (y : List (List Bool)) (a b : Nat)
    (h : edgeLookup (generate_coocurence_adjacency_matrix cfg lc y) (a, b) ≠ none) :
    (cfg.include_self_edges = true → a ≤ b) ∧
    (cfg.include_self_edges = false → a < b) := by
  have hmem := (edgeLookup_generate_ne_none_iff cfg lc y (a, b)).1 h
  have hpol := ((mem_allPairs cfg.include_self_edges lc y a b).1 hmem).2
  constructor
  · intro hincl; rw [hincl] at hpol; simpa using hpol
  · intro hincl; rw [hincl] at hpol; simpa using hpol

theorem edge_map_keys_respect_policy_witness :
    (edgeLookup (generate_coocurence_adjacency_matrix ⟨true, false, false⟩ 2
        [[true, true]]) (0, 1) ≠ none) ∧
    (((⟨true, false, false⟩ : CoocConfig).include_self_edges = true → 0 ≤ 1) ∧
     ((⟨true, false, false⟩ : CoocConfig).include_self_edges = false → 0 < 1)) :=
  ⟨by decide, edge_map_keys_respect_policy ⟨true, false, false⟩ 2 [[true, true]] 0 1 (by decide)⟩

/-- C10: `(a, b)` is a key of the generated edge map if and only if it
satisfies the configured pair policy and at least one sample row contains
both labels `a` and `b`; moreover every stored weight is strictly
positive. -/
theorem edge_map_keys_iff_cooccurrence (cfg : CoocConfig) (lc : Nat)
    (y : List (List Bool)) (a b : Nat) :
    (edgeLookup (generate_coocurence_adjacency_matrix cfg lc y) (a, b) ≠ none ↔
      ((if cfg.include_self_edges then a ≤ b else a < b) ∧
        ∃ r ∈ y, (a < lc ∧ r.getD a false = true) ∧ (b < lc ∧ r.getD b false = true))) ∧
    (∀ v : ℚ,
      edgeLookup (generate_coocurence_adjacency_matrix cfg lc y) (a, b) = some v → 0 < v) := by
  constructor
  · rw [edgeLookup_generate_ne_none_iff, mem_allPairs]
    constructor
    · rintro ⟨⟨r, hr, ha, hb⟩, hpol⟩
      exact ⟨hpol, r, hr, (mem_rowIndices lc r a).1 ha, (mem_rowIndices lc r b).1 hb⟩
    · rintro ⟨hpol, r, hr, ha, hb⟩
      exact ⟨⟨r, hr, (mem_rowIndices lc r a).2 ha, (mem_rowIndices lc r b).2 hb⟩, hpol⟩
  · intro v hv
    exact edgeLookup_generate_pos cfg lc y (a, b) v hv

theorem edge_map_keys_iff_cooccurrence_witness :
    (edgeLookup (generate_coocurence_adjacency_matrix ⟨true, false, false⟩ 2
        [[true, true]]) (0, 1) ≠ none) ∧ (0 : ℚ) < 1 :=
  ⟨(edge_map_keys_iff_cooccurrence ⟨true, false, false⟩ 2 [[true, true]] 0 1).1.mpr
      (by decide),
   (edge_map_keys_iff_cooccurrence ⟨true, false, false⟩ 2 [[true, true]] 0 1).2 1 (by decide)⟩

/-- C4: with `weighted=True` and `include_self_edges=True`, the edge map
stores under key `(i, i)` exactly the number `c` of sample rows in which
label `i` occurs at least once, halved when `normalize_self_edges=True`;
the key is absent exactly when `c = 0`. -/
theorem self_edge_weight (norm : Bool) (lc : Nat) (y : List (List Bool)) (i c : Nat)
    (hi : i < lc) (hc : y.countP (fun r => r.getD i false) = c) :
    edgeLookup (generate_coocurence_adjacency_matrix ⟨true, true, norm⟩ lc y) (i, i) =
      if c = 0 then none else some (if norm then (c : ℚ) / 2 else (c : ℚ)) := by
  have hcount : (allPairs true lc y).count (i, i) = c := by
    rw [count_self_allPairs lc y i hi, hc]
  have hfold := edgeLookup_foldl_insertPair_none true (allPairs true lc y) [] (i, i) rfl
  rw [hcount] at hfold
  rw [generate_eq_foldl]
  dsimp only
  cases norm
  · rw [if_neg (by simp), hfold]
    by_cases h0 : c = 0
    · rw [if_pos h0, if_pos h0]
    · rw [if_neg h0, if_neg h0]
      simp
  · rw [if_pos rfl, edgeLookup_normalizeSelfEdges, if_pos ⟨rfl, hi⟩, hfold]
    by_cases h0 : c = 0
    · rw [if_pos h0, if_pos h0]
      rfl
    · rw [if_neg h0, if_neg h0]
      simp

theorem self_edge_weight_witness :
    (0 < 2 ∧ ([[true], [true]] : List (List Bool)).countP (fun r => r.getD 0 false) = 2) ∧
    edgeLookup (generate_coocurence_adjacency_matrix ⟨true, true, false⟩ 2
      [[true], [true]]) (0, 0) = some (2 : ℚ) := by
  refine ⟨⟨by decide, by decide⟩, ?_⟩
  have h := self_edge_weight false 2 [[true], [true]] 0 2 (by decide) (by decide)
  simpa using h

/-- C5 as stated fails on the code: with `weighted=False`,
`include_self_edges=True` and `normalize_self_edges=True` on the
single-sample matrix `[[1]]`, the returned edge map stores weight `0.5`
under key `(0, 0)`, not `1.0`. -/
theorem unweighted_half_weight_counterexample :
    edgeLookup (generate_coocurence_adjacency_matrix ⟨false, true, true⟩ 1 [[true]]) (0, 0) =
      some (1 / 2) ∧ (1 / 2 : ℚ) ≠ 1 :=
  ⟨rfl, by norm_num⟩

/-- C5 amended: with `weighted=False` every weight stored in the returned
edge map equals `1.0`, except that when `normalize_self_edges=True` the
self-edge weights are halved to `0.5` by the final normalization pass. -/
theorem generate_unweighted_values (cfg : CoocConfig) (lc : Nat) (y : List (List Bool))
    (p : Nat × Nat) (v : ℚ) (hw : cfg.is_weighted = false)
    (h : edgeLookup (generate_coocurence_adjacency_matrix cfg lc y) p = some v) :
    v = 1 ∨ (p.1 = p.2 ∧ cfg.normalize_self_edges = true ∧ v = 1 / 2) := by
  have hfold1 : ∀ u : ℚ,
      edgeLookup ((allPairs cfg.include_self_edges lc y).foldl
        (insertPair cfg.is_weighted) []) p = some u → u = 1 := by
    intro u hu
    rcases edgeLookup_fold_values _ _ _ _ hu with ⟨hwt, _, _⟩ | ⟨_, hv⟩
    · rw [hw] at hwt; cases hwt
    · exact hv
  rw [generate_eq_foldl] at h
  by_cases hnorm : cfg.normalize_self_edges = true
  · rw [if_pos hnorm, edgeLookup_normalizeSelfEdges] at h
    by_cases hself : p.1 = p.2 ∧ p.1 < lc
    · rw [if_pos hself] at h
      rcases Option.map_eq_some'.1 h with ⟨u, hu, hv⟩
      right
      exact ⟨hself.1, hnorm, by rw [← hv, hfold1 u hu]⟩
    · rw [if_neg hself] at h
      exact .inl (hfold1 v h)
  · rw [if_neg hnorm] at h
    exact .inl (hfold1 v h)

theorem generate_unweighted_values_witness :
    ((⟨false, true, true⟩ : CoocConfig).is_weighted = false) ∧
    ((1 / 2 : ℚ) = 1 ∨ ((0 : Nat) = 0 ∧
      (⟨false, true, true⟩ : CoocConfig).normalize_self_edges = true ∧ (1 / 2 : ℚ) = 1 / 2)) :=
  ⟨rfl, generate_unweighted_values ⟨false, true, true⟩ 1 [[true]] (0, 0) (1 / 2) rfl rfl⟩

/-- C6 as stated fails on the code: on the matrix with rows
`[1,0,1]`, `[0,1,1]`, `[1,1,0]` (weighted, self edges excluded), the edge
`(1, 2)` has weight `1.0` — labels 1 and 2 co-occur only in the second
row — not the claimed `2.0`. -/
theorem example_edge_map_counterexample :
    edgeLookup (generate_coocurence_adjacency_matrix ⟨true, false, false⟩ 3
      [[true, false, true], [false, true, true], [true, true, false]]) (1, 2) = some 1 ∧
    some (1 : ℚ) ≠ some (2 : ℚ) :=
  ⟨rfl, by norm_num⟩

/-- C6 amended: on that matrix the returned edge map is exactly
`{(0,1): 1.0, (0,2): 1.0, (1,2): 1.0}` (three keys, each of weight 1). -/
theorem example_edge_map :
    (edgeLookup (generate_coocurence_adjacency_matrix ⟨true, false, false⟩ 3
        [[true, false, true], [false, true, true], [true, true, false]]) (0, 1) = some 1 ∧
     edgeLookup (generate_coocurence_adjacency_matrix ⟨true, false, false⟩ 3
        [[true, false, true], [false, true, true], [true, true, false]]) (0, 2) = some 1 ∧
     edgeLookup (generate_coocurence_adjacency_matrix ⟨true, false, false⟩ 3
        [[true, false, true], [false, true, true], [true, true, false]]) (1, 2) = some 1) ∧
    (generate_coocurence_adjacency_matrix ⟨true, false, false⟩ 3
      [[true, false, true], [false, true, true], [true, true, false]]).length = 3 :=
  ⟨⟨rfl, rfl, rfl⟩, rfl⟩

/-- C8: `build_graph_instance` yields a graph with exactly `label_count`
vertices (provided the edge map's endpoints are in range, which the
builder guarantees), with exactly one edge per edge-map entry in order,
and the weight property attached to each edge equals that entry's value;
the function is total, so it introduces no error paths of its own. -/
theorem build_graph_instance_spec (label_count : Nat) (edge_map : EdgeMap)
    (h : ∀ kv ∈ edge_map, kv.1.1 < label_count ∧ kv.1.2 < label_count) :
    (build_graph_instance label_count edge_map).1.num_vertices = label_count ∧
    (build_graph_instance label_count edge_map).1.edges = edge_map.map (fun kv => kv.1) ∧
    (build_graph_instance label_count edge_map).2 = edge_map.map (fun kv => kv.2) := by
  have hstart : (GtGraph.add_vertex ⟨0, []⟩ label_count).num_vertices = label_count := by
    simp [GtGraph.add_vertex]
  simp only [build_graph_instance]
  rw [build_graph_foldl label_count edge_map _ _ hstart h]
  simp [GtGraph.add_vertex]

theorem build_graph_instance_spec_witness :
    (∀ kv ∈ ([((0, 1), (3 : ℚ))] : EdgeMap), kv.1.1 < 2 ∧ kv.1.2 < 2) ∧
    ((build_graph_instance 2 [((0, 1), (3 : ℚ))]).1.num_vertices = 2 ∧
     (build_graph_instance 2 [((0, 1), (3 : ℚ))]).1.edges =
       ([((0, 1), (3 : ℚ))] : EdgeMap).map (fun kv => kv.1) ∧
     (build_graph_instance 2 [((0, 1), (3 : ℚ))]).2 =
       ([((0, 1), (3 : ℚ))] : EdgeMap).map (fun kv => kv.2)) :=
  ⟨by decide, build_graph_instance_spec 2 [((0, 1), (3 : ℚ))] (by decide)⟩

/-- C9: every key `(a, b)` of the edge map generated from a binary label
matrix satisfies `a ≤ b < label_count`, so when `build_graph_instance`
adds one edge per entry both endpoints are among the `label_count`
vertices created up front and no out-of-range vertex is referenced or
implicitly created: the final vertex count is exactly `label_count`. -/
theorem edge_map_keys_in_range (cfg : CoocConfig) (lc : Nat) (y : List (List Bool)) :
    (∀ kv ∈ generate_coocurence_adjacency_matrix cfg lc y,
      kv.1.1 ≤ kv.1.2 ∧ kv.1.2 < lc) ∧
    (build_graph_instance lc (generate_coocurence_adjacency_matrix cfg lc y)).1.num_vertices
      = lc := by
  have hkeys : ∀ kv ∈ generate_coocurence_adjacency_matrix cfg lc y,
      kv.1.1 ≤ kv.1.2 ∧ kv.1.2 < lc := by
    intro kv hkv
    have hne := edgeLookup_ne_none_of_mem _ _ hkv
    have hmem := (edgeLookup_generate_ne_none_iff cfg lc y kv.1).1 hne
    have hall := (mem_allPairs cfg.include_self_edges lc y kv.1.1 kv.1.2).1 hmem
    rcases hall with ⟨⟨r, _, _, hb⟩, hpol⟩
    refine ⟨?_, ((mem_rowIndices lc r kv.1.2).1 hb).1⟩
    cases hincl : cfg.include_self_edges
    · rw [hincl] at hpol
      exact Nat.le_of_lt (by simpa using hpol)
    · rw [hincl] at hpol
      simpa using hpol
  refine ⟨hkeys, ?_⟩
  have hstart : (GtGraph.add_vertex ⟨0, []⟩ lc).num_vertices = lc := by
    simp [GtGraph.add_vertex]
  have hb : ∀ kv ∈ generate_coocurence_adjacency_matrix cfg lc y,
      kv.1.1 < lc ∧ kv.1.2 < lc := fun kv h =>
    ⟨Nat.lt_of_le_of_lt (hkeys kv h).1 (hkeys kv h).2, (hkeys kv h).2⟩
  simp only [build_graph_instance]
  rw [build_graph_foldl lc _ _ _ hstart hb]

theorem edge_map_keys_in_range_witness :
    (∀ kv ∈ generate_coocurence_adjacency_matrix ⟨true, true, false⟩ 2 [[true, true]],
      kv.1.1 ≤ kv.1.2 ∧ kv.1.2 < 2) ∧
    (build_graph_instance 2
      (generate_coocurence_adjacency_matrix ⟨true, true, false⟩ 2 [[true, true]])).1.num_vertices
      = 2 :=
  edge_map_keys_in_range ⟨true, true, false⟩ 2 [[true, true]]

/-! ## Cluster extraction from the block assignment -/

theorem label_sets_step_some (n : Nat) (g : Nat → List Nat) (ib : Nat × Nat)
    (hb : ib.2 < n) :
    label_sets_step (some ((List.range n).map (fun b => (b, g b)))) ib =
      some ((List.range n).map (fun b => (b, g b ++ if b = ib.2 then [ib.1] else []))) := by
  have hany : ((List.range n).map (fun b => (b, g b))).any (fun kv => kv.1 == ib.2) = true := by
    rw [List.any_eq_true]
    exact ⟨(ib.2, g ib.2), List.mem_map.2 ⟨ib.2, List.mem_range.2 hb, rfl⟩, by simp⟩
  show (if ((List.range n).map (fun b => (b, g b))).any (fun kv => kv.1 == ib.2) then
      some (((List.range n).map (fun b => (b, g b))).map
        (fun kv => if kv.1 == ib.2 then (kv.1, kv.2 ++ [ib.1]) else kv))
    else none) = _
  rw [if_pos hany]
  congr 1
  rw [List.map_map]
  apply List.map_congr_left
  intro b _
  simp only [Function.comp_apply]
  by_cases hbe : b = ib.2
  · subst hbe
    simp
  · have hf : (b == ib.2) = false := by simp [hbe]
    simp [hf, hbe]

theorem label_sets_foldl (n : Nat) (l : List (Nat × Nat)) :
    ∀ g : Nat → List Nat, (∀ p ∈ l, p.2 < n) →
      l.foldl label_sets_step (some ((List.range n).map (fun b => (b, g b)))) =
        some ((List.range n).map (fun b =>
          (b, g b ++ (l.filter (fun p => p.2 == b)).map (fun p => p.1)))) := by
  induction l with
  | nil =>
    intro g _
    simp
  | cons ib l ih =>
    intro g hl
    rw [List.foldl_cons, label_sets_step_some n g ib (hl ib (List.mem_cons_self _ _))]
    rw [ih (fun b => g b ++ if b = ib.2 then [ib.1] else [])
      (fun p hp => hl p (List.mem_cons_of_mem _ hp))]
    congr 1
    apply List.map_congr_left
    intro b _
    rw [List.filter_cons]
    by_cases hbe : b = ib.2
    · subst hbe
      simp [List.append_assoc]
    · have hf : (ib.2 == b) = false := by
        simp only [beq_eq_false_iff_ne, ne_eq]
        exact fun h => hbe h.symm
      simp [hf, hbe]

theorem countP_range_eq_one (n k : Nat) (hk : k < n) :
    (List.range n).countP (fun b => decide (b = k)) = 1 := by
  induction n with
  | zero => omega
  | succ n ih =>
    rw [List.range_succ, List.countP_append]
    by_cases h : k < n
    · rw [ih h]
      have h2 : List.countP (fun b => decide (b = k)) [n] = 0 := by
        simp [List.countP_cons]
        omega
      rw [h2]
    · have hk' : k = n := by omega
      subst hk'
      have h0 : (List.range k).countP (fun b => decide (b = k)) = 0 := by
        rw [List.countP_eq_zero]
        intro a ha
        have := List.mem_range.1 ha
        simp
        omega
      rw [h0]
      simp

/-- C1: when overlap is not allowed, the block array returned by the
inference engine assigns one block id per label, each below the label
count (`state.copy(B=num_vertices)` guarantees the range); under exactly
that contract, the clusters `fit_predict` extracts are non-empty and
partition `{0, …, label_count-1}`: every label index lies in exactly one
returned cluster, with no overlaps and no omissions. -/
theorem fit_predict_partitions (found_blocks : List Nat)
    (hb : ∀ b ∈ found_blocks, b < found_blocks.length) :
    ∃ clusters, fit_predict_label_sets found_blocks = some clusters ∧
      (∀ c ∈ clusters, c ≠ []) ∧
      (∀ i : Nat, (∃ c ∈ clusters, i ∈ c) ↔ i < found_blocks.length) ∧
      (∀ i : Nat, i < found_blocks.length →
        clusters.countP (fun c => decide (i ∈ c)) = 1) := by
  have henum : ∀ p ∈ found_blocks.enum, p.2 < found_blocks.length := by
    intro p hp
    have hg := List.mem_enum_iff_getElem?.1 hp
    rcases List.getElem?_eq_some_iff.1 hg with ⟨hlt, heq⟩
    exact hb p.2 (heq ▸ List.getElem_mem hlt)
  have hfold := label_sets_foldl found_blocks.length found_blocks.enum
    (fun _ => []) henum
  have hgroup : ∀ b i : Nat,
      (i ∈ (found_blocks.enum.filter (fun p => p.2 == b)).map (fun p => p.1)) ↔
        found_blocks[i]? = some b := by
    intro b i
    simp only [List.mem_map, List.mem_filter]
    constructor
    · rintro ⟨p, ⟨hpe, hpb⟩, rfl⟩
      have hp2 : p.2 = b := by simpa using hpb
      rw [← hp2]
      exact List.mem_enum_iff_getElem?.1 hpe
    · intro hgi
      exact ⟨(i, b), ⟨List.mem_enum_iff_getElem?.2 (by simpa using hgi), by simp⟩, rfl⟩
  refine ⟨((List.range found_blocks.length).map
      (fun b => (found_blocks.enum.filter (fun p => p.2 == b)).map (fun p => p.1))).filter
        (fun c => decide (0 < c.length)), ?_, ?_, ?_, ?_⟩
  · simp only [fit_predict_label_sets]
    rw [hfold]
    simp only [List.map_map, List.nil_append]
    rfl
  · intro c hc
    have hlen : 0 < c.length := by
      have := (List.mem_filter.1 hc).2
      simpa using this
    exact List.length_pos.1 hlen
  · intro i
    constructor
    · rintro ⟨c, hc, hic⟩
      have hcm := (List.mem_filter.1 hc).1
      rcases List.mem_map.1 hcm with ⟨b, _, rfl⟩
      have hsome := (hgroup b i).1 hic
      exact (List.getElem?_eq_some_iff.1 hsome).1
    · intro hi
      have hbi : found_blocks[i]? = some (found_blocks.get ⟨i, hi⟩) := by
        rw [List.getElem?_eq_getElem hi]
        simp
      have hib := (hgroup (found_blocks.get ⟨i, hi⟩) i).2 hbi
      have hbn : found_blocks.get ⟨i, hi⟩ < found_blocks.length :=
        hb _ (List.get_mem _ _ hi)
      refine ⟨(found_blocks.enum.filter
          (fun p => p.2 == found_blocks.get ⟨i, hi⟩)).map (fun p => p.1),
        List.mem_filter.2 ⟨List.mem_map.2 ⟨_, List.mem_range.2 hbn, rfl⟩, ?_⟩, hib⟩
      have hlen : 0 < ((found_blocks.enum.filter
          (fun p => p.2 == found_blocks.get ⟨i, hi⟩)).map (fun p => p.1)).length :=
        List.length_pos.2 (List.ne_nil_of_mem hib)
      simpa using hlen
  · intro i hi
    rw [List.countP_filter]
    have hcong1 : List.countP
        (fun c => decide (i ∈ c) && decide (0 < c.length))
        ((List.range found_blocks.length).map
          (fun b => (found_blocks.enum.filter (fun p => p.2 == b)).map (fun p => p.1))) =
      List.countP (fun c => decide (i ∈ c))
        ((List.range found_blocks.length).map
          (fun b => (found_blocks.enum.filter (fun p => p.2 == b)).map (fun p => p.1))) := by
      apply List.countP_congr
      intro c _
      constructor
      · intro h'
        simp only [Bool.and_eq_true] at h'
        exact h'.1
      · intro h'
        have hmem : i ∈ c := of_decide_eq_true h'
        have hlen : 0 < c.length := List.length_pos.2 (List.ne_nil_of_mem hmem)
        simp [hmem, hlen]
    rw [hcong1, List.countP_map]
    have hbi : found_blocks[i]? = some (found_blocks.get ⟨i, hi⟩) := by
      rw [List.getElem?_eq_getElem hi]
      simp
    have hcong2 : List.countP
        ((fun c => decide (i ∈ c)) ∘
          (fun b => (found_blocks.enum.filter (fun p => p.2 == b)).map (fun p => p.1)))
        (List.range found_blocks.length) =
      List.countP (fun b => decide (b = found_blocks.get ⟨i, hi⟩))
        (List.range found_blocks.length) := by
      apply List.countP_congr
      intro b _
      simp only [Function.comp_apply, decide_eq_true_eq]
      rw [hgroup b i, hbi]
      simp [eq_comm]
    rw [hcong2]
    exact countP_range_eq_one _ _ (hb _ (List.get_mem _ _ hi))

theorem fit_predict_partitions_witness :
    (∀ b ∈ ([0, 0, 1] : List Nat), b < ([0, 0, 1] : List Nat).length) ∧
    (∃ clusters, fit_predict_label_sets [0, 0, 1] = some clusters ∧
      (∀ c ∈ clusters, c ≠ []) ∧
      (∀ i : Nat, (∃ c ∈ clusters, i ∈ c) ↔ i < ([0, 0, 1] : List Nat).length) ∧
      (∀ i : Nat, i < ([0, 0, 1] : List Nat).length →
        clusters.countP (fun c => decide (i ∈ c)) = 1)) :=
  ⟨by decide, fit_predict_partitions [0, 0, 1] (by decide)⟩

/-! ## Model selection -/

/-- C2: with `use_degree_corr=None`, `fit_predict` runs inference for both
degree-correction settings (in loop order `True, False`) and picks the
degree-corrected model exactly when the selected criterion — `S_mf_` for
`model_selection_criterium='mean_field'`, `S_bethe_` for `'bethe'` — is
smaller at `True` than at `False`; with a boolean `use_degree_corr`, only
that setting is run and it is used directly, with no comparison. -/
theorem fit_predict_model_selection (s_mf s_bethe : Bool → ℚ) (b : Bool) (crit : String) :
    fit_predict_select_model none "mean_field" s_mf s_bethe =
      ([true, false], decide (s_mf true < s_mf false)) ∧
    fit_predict_select_model none "bethe" s_mf s_bethe =
      ([true, false], decide (s_bethe true < s_bethe false)) ∧
    fit_predict_select_model (some b) crit s_mf s_bethe = ([b], b) := by
  refine ⟨?_, ?_, rfl⟩
  · simp [fit_predict_select_model]
  · simp [fit_predict_select_model]

/-! ## Constructor validation -/

theorem pyBoolLike_truthy (v : PyVal) (h : pyInTrueFalse v = true) :
    (pyTruthy v = false ↔ pyEq v (.pybool false) = true) ∧
    (pyTruthy v = true ↔ pyEq v (.pybool true) = true) := by
  cases v with
  | pynone => simp [pyInTrueFalse, pyEq] at h
  | pybool b => cases b <;> simp [pyEq, pyTruthy]
  | pyint k =>
    simp only [pyInTrueFalse, pyEq, Bool.or_eq_true, beq_iff_eq] at h
    rcases h with h | h <;> subst h <;> decide

/-- C3 as stated fails on the code: the integer `1` is not strictly a
boolean, yet `__init__(1, True, False)` raises nothing and sets the
attributes, because Python's `in [True, False]` compares with `==` and
`1 == True`. -/
theorem init_nonstrict_bool_counterexample :
    pyIsStrictBool (.pyint 1) = false ∧
    LabelCooccurenceClustererBase_init (.pyint 1) (.pybool true) (.pybool false) =
      .ok ⟨.pyint 1, .pybool true, .pybool false⟩ :=
  ⟨rfl, rfl⟩

/-- C3 amended: the constructor raises `ValueError` — synchronously, before
any attribute of the instance is set — if and only if one of the three
flags is not equal to `True` or `False` under Python equality (which
identifies `1` with `True` and `0` with `False`), or
`include_self_edges` equals `False` while `normalize_self_edges` equals
`True`. -/
theorem init_error_iff (w i n : PyVal) :
    (∃ msg, LabelCooccurenceClustererBase_init w i n = .error msg) ↔
      (pyInTrueFalse w = false ∨ pyInTrueFalse i = false ∨ pyInTrueFalse n = false ∨
        (pyEq i (.pybool false) = true ∧ pyEq n (.pybool true) = true)) := by
  unfold LabelCooccurenceClustererBase_init
  cases hw : pyInTrueFalse w
  · simp [hw]
  · cases hi : pyInTrueFalse i
    · simp [hw, hi]
    · cases hn : pyInTrueFalse n
      · simp [hw, hi, hn]
      · have hti := pyBoolLike_truthy i hi
        have htn := pyBoolLike_truthy n hn
        cases hcond : (!pyTruthy i && pyTruthy n)
        · simp only [hw, hi, hn, hcond, Bool.not_true, Bool.false_eq_true, if_false,
            Bool.true_eq_false, false_or]
          constructor
          · rintro ⟨msg, hmsg⟩
            cases hmsg
          · rintro ⟨h1, h2⟩
            have ht1 : pyTruthy i = false := hti.1.2 h1
            have ht2 : pyTruthy n = true := htn.2.2 h2
            rw [ht1, ht2] at hcond
            cases hcond
        · simp only [hw, hi, hn, hcond, Bool.not_true, Bool.false_eq_true, if_false,
            Bool.true_eq_false, false_or, if_true]
          constructor
          · intro _
            have h12 := Bool.and_eq_true_iff.1 hcond
            refine ⟨hti.1.1 ?_, htn.2.1 h12.2⟩
            have := h12.1
            cases hpt : pyTruthy i
            · rfl
            · rw [hpt] at this
              cases this
          · intro _
            exact ⟨"Include self edges must be set to true if normalization is true", rfl⟩

end Skmultilearn
